import Mathlib

/-!
Shallow embedding of the diff data model and selection engine of
`src/app/src/ui/diff/index.tsx` (the `Diff` React component together with the
diff model classes `DiffLine`, `DiffHunk`, `Diff`, `DiffSelectionParser` and
`DiffSelection` bundled in the same source file).

JavaScript `Map<number, boolean>` values are embedded as insertion-ordered
association lists with unique keys (`SelMap`); `Map.prototype.set` replaces
the value in place when the key is present and appends otherwise, which is
what `mapSet` does.  TypeScript `number` indices are embedded as `Int`
(negative indices flow into `diffHunkForIndex`).
-/

set_option autoImplicit false

namespace Desktop

/-- `DiffLineType`: indicate what a line in the diff represents. -/
inductive DiffLineType where
  | Context
  | Add
  | Delete
  | Hunk
deriving DecidableEq, Repr

/-- `DiffLine`: track details related to each line in the diff.
`selected` is the mutable `included` flag (initialised `false` in the source). -/
structure DiffLine where
  text : String
  type : DiffLineType
  oldLineNumber : Option Int
  newLineNumber : Option Int
  selected : Bool := false
  noTrailingNewLine : Bool := false
deriving DecidableEq, Repr

/-- `DiffHunkHeader`: details about the start and end of a diff hunk. -/
structure DiffHunkHeader where
  oldStartLine : Int
  oldLineCount : Int
  newStartLine : Int
  newLineCount : Int
deriving DecidableEq, Repr

/-- `DiffHunk`: a hunk's header, lines, and its global index range
`[unifiedDiffStart, unifiedDiffEnd]` in the overall file diff. -/
structure DiffHunk where
  header : DiffHunkHeader
  lines : List DiffLine
  unifiedDiffStart : Int
  unifiedDiffEnd : Int
deriving DecidableEq, Repr

/-- The model class `Diff` (imported as `Diff as DiffModel` in the component
file): the contents of a diff generated by Git. -/
structure DiffModel where
  hunks : List DiffHunk
  isBinary : Bool := false
deriving DecidableEq, Repr

/-- A line is selectable when its type is `Add` or `Delete`; this is the test
`line.type === DiffLineType.Add || line.type === DiffLineType.Delete`
repeated at each use site in the source. -/
def DiffLine.selectable (l : DiffLine) : Bool :=
  l.type = DiffLineType.Add || l.type = DiffLineType.Delete

/-- `Diff.setAllLines(include)`: sets the `selected` flag on every `Add`/`Delete`
line across all hunks; other lines are left alone. -/
def DiffModel.setAllLines (d : DiffModel) (incl : Bool) : DiffModel :=
  { d with hunks := d.hunks.map (fun hunk =>
      { hunk with lines := hunk.lines.map (fun line =>
          if line.type = DiffLineType.Add || line.type = DiffLineType.Delete
          then { line with selected := incl }
          else line) }) }

/-- `DiffSelectionType` enumeration. -/
inductive DiffSelectionType where
  | All
  | Partial
  | None
deriving DecidableEq, Repr

/-- Embedding of `Map<number, boolean>`: insertion-ordered entries. -/
abbrev SelMap := List (Int × Bool)

/-- `Map.prototype.set`: replace in place when the key is present (keeping the
entry's position), append otherwise. -/
def mapSet (m : SelMap) (k : Int) (v : Bool) : SelMap :=
  match m with
  | [] => [(k, v)]
  | p :: rest => if p.1 = k then (k, v) :: rest else p :: mapSet rest k v

/-- `Map.prototype.get` as used through `find?` on entries. -/
def mapGet (m : SelMap) (k : Int) : Option Bool :=
  match m with
  | [] => none
  | p :: rest => if p.1 = k then some p.2 else mapGet rest k

/-- `DiffSelectionParser.parse`: iterate over the selected values and determine
the all/none state.  `Array.from(selection.values())` is the values list;
`every` is `List.all`. -/
def DiffSelectionParser.parse (selection : SelMap) : Bool × Bool :=
  let toArray := selection.map Prod.snd
  let allSelected := toArray.all (fun k => k = true)
  let noneSelected := toArray.all (fun k => k = false)
  (allSelected, noneSelected)

/-- `DiffSelectionParser.getState`: determine the selection state based on the
selected lines. -/
def DiffSelectionParser.getState (selection : SelMap) : DiffSelectionType :=
  let p := DiffSelectionParser.parse selection
  if p.1 then DiffSelectionType.All
  else if p.2 then DiffSelectionType.None
  else DiffSelectionType.Partial

/-- `DiffSelection`: the default include state (`All` unless constructed
otherwise) plus the sparse map of per-line overrides. -/
structure DiffSelection where
  incl : DiffSelectionType := DiffSelectionType.All
  selectedLines : SelMap
deriving DecidableEq, Repr

/-- `DiffSelection.getSelectionType`: return the current state of the diff
selection (`size === 0` guard, then delegate to the parser). -/
def DiffSelection.getSelectionType (s : DiffSelection) : DiffSelectionType :=
  if s.selectedLines.length = 0 then s.incl
  else DiffSelectionParser.getState s.selectedLines

/-- `Diff.diffHunkForIndex`: `diff.hunks.find(h => index >= h.unifiedDiffStart
&& index <= h.unifiedDiffEnd)`, with `undefined` turned into `null`. -/
def Diff.diffHunkForIndex (diff : DiffModel) (index : Int) : Option DiffHunk :=
  diff.hunks.find? (fun h =>
    decide (h.unifiedDiffStart ≤ index) && decide (index ≤ h.unifiedDiffEnd))

/-- `Diff.getClassName`: the `switch` over `DiffLineType`; the fall-through to
`assertNever` (which throws) is embedded as the `error` branch. -/
def Diff.getClassName (t : DiffLineType) : Except String String :=
  if t = DiffLineType.Add then Except.ok "diff-add"
  else if t = DiffLineType.Delete then Except.ok "diff-delete"
  else if t = DiffLineType.Context then Except.ok "diff-context"
  else if t = DiffLineType.Hunk then Except.ok "diff-hunk"
  else Except.error "Unknown DiffLineType"

/-- The inner `hunk.lines.forEach((line, index) => ...)` of
`Diff.onIncludeChanged`: seed an entry `(unifiedDiffStart + index, line.selected)`
for each `Add`/`Delete` line.  `idx` is the running `forEach` index. -/
def seedLines (start : Int) : Nat → SelMap → List DiffLine → SelMap
  | _, m, [] => m
  | idx, m, line :: rest =>
    seedLines start (idx + 1)
      (if line.type = DiffLineType.Add || line.type = DiffLineType.Delete
       then mapSet m (start + (idx : Int)) line.selected
       else m) rest

/-- The outer `this.state.diff.hunks.forEach(hunk => ...)` body of
`Diff.onIncludeChanged`. -/
def seedHunk (m : SelMap) (hunk : DiffHunk) : SelMap :=
  seedLines hunk.unifiedDiffStart 0 m hunk.lines

/-- `Diff.onIncludeChanged(line, rowIndex)` after its guards: build
`newDiffSelection` with one entry per selectable line at its current
`selected` flag, then apply `set(i, !line.selected)` for
`i = startLine .. endLine` where `startLine = endLine = rowIndex`. -/
def Diff.onIncludeChanged (diff : DiffModel) (line : DiffLine) (rowIndex : Int) : SelMap :=
  let newDiffSelection := diff.hunks.foldl seedHunk []
  let incl := !line.selected
  mapSet newDiffSelection rowIndex incl

/-- The global addressing invariant of the spec, checked from a starting
index: hunks are ordered with contiguous `[unifiedDiffStart, unifiedDiffEnd]`
ranges, each range exactly covering the hunk's (non-empty) line list. -/
def contiguousFrom : Int → List DiffHunk → Bool
  | _, [] => true
  | s, h :: t =>
    decide (h.unifiedDiffStart = s)
      && decide (h.unifiedDiffEnd = s + (h.lines.length : Int) - 1)
      && decide (0 < h.lines.length)
      && contiguousFrom (h.unifiedDiffEnd + 1) t

/-- Total number of lines across a list of hunks, as an `Int`. -/
def sumLines : List DiffHunk → Int
  | [] => 0
  | h :: t => (h.lines.length : Int) + sumLines t

/-- The `unifiedDiffEnd` of the last hunk (`-1` when there are no hunks). -/
def lastHunkEnd (d : DiffModel) : Int :=
  match d.hunks.getLast? with
  | some h => h.unifiedDiffEnd
  | none => -1

/-! ### Example fixtures (used by witnesses and counterexamples) -/

def lineH0 : DiffLine :=
  { text := "@@ -1,3 +1,3 @@", type := DiffLineType.Hunk,
    oldLineNumber := none, newLineNumber := none }

def lineC1 : DiffLine :=
  { text := " a", type := DiffLineType.Context,
    oldLineNumber := some 1, newLineNumber := some 1 }

def lineA1 : DiffLine :=
  { text := "+b", type := DiffLineType.Add,
    oldLineNumber := none, newLineNumber := some 2 }

def lineD1 : DiffLine :=
  { text := "-c", type := DiffLineType.Delete,
    oldLineNumber := some 2, newLineNumber := none }

def hunk0 : DiffHunk :=
  { header := ⟨1, 3, 1, 3⟩, lines := [lineH0, lineC1, lineA1, lineD1],
    unifiedDiffStart := 0, unifiedDiffEnd := 3 }

def hunk1 : DiffHunk :=
  { header := ⟨5, 2, 5, 2⟩, lines := [lineH0, lineA1],
    unifiedDiffStart := 4, unifiedDiffEnd := 5 }

def diffEx : DiffModel := { hunks := [hunk0, hunk1] }

/-! ### Basic lemmas about the `Map<number, boolean>` embedding -/

theorem mapGet_mapSet_self (m : SelMap) (k : Int) (v : Bool) :
    mapGet (mapSet m k v) k = some v := by
  induction m with
  | nil => simp [mapSet, mapGet]
  | cons p rest ih =>
    by_cases h : p.1 = k <;> simp [mapSet, mapGet, h, ih]

theorem mapGet_mapSet_ne (m : SelMap) (k k2 : Int) (v : Bool) (h : k2 ≠ k) :
    mapGet (mapSet m k v) k2 = mapGet m k2 := by
  induction m with
  | nil =>
    simp only [mapSet, mapGet]
    rw [if_neg (fun he => h he.symm)]
  | cons p rest ih =>
    by_cases hp : p.1 = k
    · subst hp
      simp [mapSet, mapGet, Ne.symm h]
    · by_cases hp2 : p.1 = k2 <;> simp [mapSet, mapGet, h, hp, hp2, ih]

theorem mapGet_mem (m : SelMap) (k : Int) (v : Bool) (h : mapGet m k = some v) :
    (k, v) ∈ m := by
  induction m with
  | nil => simp [mapGet] at h
  | cons p rest ih =>
    rw [mapGet] at h
    by_cases hp : p.1 = k
    · rw [if_pos hp] at h
      obtain ⟨p1, p2⟩ := p
      obtain rfl : p2 = v := by simpa using h
      simp_all
    · rw [if_neg hp] at h
      exact List.mem_cons_of_mem _ (ih h)

theorem mem_mapSet_of_ne (m : SelMap) (k k2 : Int) (v v2 : Bool)
    (h : (k2, v2) ∈ m) (hne : k2 ≠ k) : (k2, v2) ∈ mapSet m k v := by
  induction m with
  | nil => simp at h
  | cons p rest ih =>
    rcases List.mem_cons.mp h with h1 | h1
    · by_cases hp : p.1 = k
      · rw [← h1] at hp
        exact absurd hp hne
      · rw [mapSet, if_neg hp]
        simp [h1]
    · by_cases hp : p.1 = k
      · rw [mapSet, if_pos hp]
        exact List.mem_cons_of_mem _ h1
      · rw [mapSet, if_neg hp]
        exact List.mem_cons_of_mem _ (ih h1)

theorem mapGet_of_mem_nodup (m : SelMap) (k : Int) (v : Bool)
    (hmem : (k, v) ∈ m) (hnd : (m.map Prod.fst).Nodup) : mapGet m k = some v := by
  induction m with
  | nil => simp at hmem
  | cons p rest ih =>
    rw [mapGet]
    rcases List.mem_cons.mp hmem with h1 | h1
    · rw [← h1]
      simp
    · by_cases hp : p.1 = k
      · exfalso
        have hk : k ∈ rest.map Prod.fst := List.mem_map.mpr ⟨(k, v), h1, rfl⟩
        rw [List.map_cons, List.nodup_cons] at hnd
        exact hnd.1 (hp ▸ hk)
      · rw [if_neg hp]
        exact ih h1 ((List.map_cons _ _ _ ▸ hnd).of_cons)

/-! ### Characterisation of `DiffSelectionParser.getState` -/

theorem getState_eq_All_iff (m : SelMap) :
    DiffSelectionParser.getState m = DiffSelectionType.All ↔ ∀ p ∈ m, p.2 = true := by
  simp only [DiffSelectionParser.getState, DiffSelectionParser.parse]
  split_ifs with h1 h2
  · simpa [List.all_eq_true] using h1
  · simp only [List.all_eq_true, List.mem_map, decide_eq_true_eq] at h1
    push_neg at h1
    obtain ⟨b, ⟨p, hp, rfl⟩, hb⟩ := h1
    simp only [show DiffSelectionType.None ≠ DiffSelectionType.All from by decide, false_iff]
    intro hall
    exact hb (hall p hp)
  · simp only [List.all_eq_true, List.mem_map, decide_eq_true_eq] at h1
    push_neg at h1
    obtain ⟨b, ⟨p, hp, rfl⟩, hb⟩ := h1
    simp only [show DiffSelectionType.Partial ≠ DiffSelectionType.All from by decide, false_iff]
    intro hall
    exact hb (hall p hp)

theorem getState_eq_None_iff (m : SelMap) (hne : m ≠ []) :
    DiffSelectionParser.getState m = DiffSelectionType.None ↔ ∀ p ∈ m, p.2 = false := by
  obtain ⟨q, rest, rfl⟩ := List.exists_cons_of_ne_nil hne
  simp only [DiffSelectionParser.getState, DiffSelectionParser.parse]
  split_ifs with h1 h2
  · simp only [List.all_eq_true, List.mem_map, decide_eq_true_eq] at h1
    have hq : q.2 = true := h1 q.2 ⟨q, by simp, rfl⟩
    simp only [show DiffSelectionType.All ≠ DiffSelectionType.None from by decide, false_iff]
    intro hall
    have := hall q (by simp)
    rw [hq] at this
    exact Bool.true_eq_false.mp this
  · constructor
    · intro _
      simp only [List.all_eq_true, List.mem_map, decide_eq_true_eq] at h2
      intro p hp
      exact h2 p.2 ⟨p, hp, rfl⟩
    · intro _
      rfl
  · simp only [List.all_eq_true, List.mem_map, decide_eq_true_eq] at h2
    push_neg at h2
    obtain ⟨b, ⟨p, hp, rfl⟩, hb⟩ := h2
    simp only [show DiffSelectionType.Partial ≠ DiffSelectionType.None from by decide, false_iff]
    intro hall
    exact hb (hall p hp)

theorem getState_eq_Partial_iff (m : SelMap) :
    DiffSelectionParser.getState m = DiffSelectionType.Partial ↔
      (∃ p ∈ m, p.2 = true) ∧ (∃ p ∈ m, p.2 = false) := by
  simp only [DiffSelectionParser.getState, DiffSelectionParser.parse]
  split_ifs with h1 h2
  · simp only [List.all_eq_true, List.mem_map, decide_eq_true_eq] at h1
    simp only [show DiffSelectionType.All ≠ DiffSelectionType.Partial from by decide, false_iff]
    rintro ⟨-, ⟨p, hp, hfalse⟩⟩
    have := h1 p.2 ⟨p, hp, rfl⟩
    rw [hfalse] at this
    exact Bool.false_eq_true.mp this
  · simp only [List.all_eq_true, List.mem_map, decide_eq_true_eq] at h2
    simp only [show DiffSelectionType.None ≠ DiffSelectionType.Partial from by decide, false_iff]
    rintro ⟨⟨p, hp, htrue⟩, -⟩
    have := h2 p.2 ⟨p, hp, rfl⟩
    rw [htrue] at this
    exact Bool.true_eq_false.mp this
  · simp only [List.all_eq_true, List.mem_map, decide_eq_true_eq] at h1 h2
    push_neg at h1 h2
    obtain ⟨b1, ⟨p1, hp1, rfl⟩, hb1⟩ := h1
    obtain ⟨b2, ⟨p2, hp2, rfl⟩, hb2⟩ := h2
    simp only [true_iff]
    exact ⟨⟨p2, hp2, Bool.eq_true_of_not_eq_false hb2⟩, ⟨p1, hp1, Bool.eq_false_of_not_eq_true hb1⟩⟩

/-- C1 — Tri-state correctness: for any non-empty overrides map,
`DiffSelectionParser.getState` returns `All` iff every value is `true`,
`None` iff every value is `false`, and `Partial` otherwise. -/
theorem getState_tristate_correct (m : SelMap) (hne : m ≠ []) :
    (DiffSelectionParser.getState m = DiffSelectionType.All ↔ ∀ p ∈ m, p.2 = true)
    ∧ (DiffSelectionParser.getState m = DiffSelectionType.None ↔ ∀ p ∈ m, p.2 = false)
    ∧ (DiffSelectionParser.getState m = DiffSelectionType.Partial ↔
        ¬ (∀ p ∈ m, p.2 = true) ∧ ¬ (∀ p ∈ m, p.2 = false))
    ∧ (∀ t : DiffSelectionType,
        (DiffSelection.mk t m).getSelectionType = DiffSelectionParser.getState m) := by
  refine ⟨getState_eq_All_iff m, getState_eq_None_iff m hne, ?_, ?_⟩
  · rw [getState_eq_Partial_iff m]
    constructor
    · rintro ⟨⟨p1, hp1, h1⟩, ⟨p2, hp2, h2⟩⟩
      exact ⟨fun hall => by simp [hall p2 hp2] at h2, fun hall => by simp [hall p1 hp1] at h1⟩
    · rintro ⟨h1, h2⟩
      push_neg at h1 h2
      obtain ⟨p1, hp1, hb1⟩ := h1
      obtain ⟨p2, hp2, hb2⟩ := h2
      exact ⟨⟨p2, hp2, Bool.eq_true_of_not_eq_false hb2⟩,
        ⟨p1, hp1, Bool.eq_false_of_not_eq_true hb1⟩⟩
  · intro t
    have hlen : m.length ≠ 0 := fun hc => hne (List.length_eq_zero.mp hc)
    simp [DiffSelection.getSelectionType, hlen]

theorem getState_tristate_correct_witness :
    DiffSelectionParser.getState [((0 : Int), true), (1, false)] = DiffSelectionType.Partial :=
  (getState_tristate_correct [((0 : Int), true), (1, false)] (by decide)).2.2.1.mpr
    ⟨by decide, by decide⟩

/-- C5 — Default fallback: when the overrides map is empty,
`DiffSelection.getSelectionType` returns the state's configured default,
whatever that default is. -/
theorem getSelectionType_empty_default (s : DiffSelection) (h : s.selectedLines = []) :
    s.getSelectionType = s.incl := by
  simp [DiffSelection.getSelectionType, h]

theorem getSelectionType_empty_default_witness :
    (DiffSelection.mk DiffSelectionType.None []).getSelectionType = DiffSelectionType.None :=
  getSelectionType_empty_default (DiffSelection.mk DiffSelectionType.None []) rfl

/-- C9 — Exhaustiveness: `Diff.getClassName` returns a class name for every
declared `DiffLineType` variant; the `assertNever` fall-through (the `error`
branch of the embedding) is unreachable. -/
theorem getClassName_total (t : DiffLineType) :
    ∃ c, Diff.getClassName t = Except.ok c := by
  cases t <;> exact ⟨_, rfl⟩

/-- C10 — `DiffSelectionParser.getState` on an empty map returns `All`: both
`every` checks are vacuously true on the empty values array and the `All`
branch is tested first, so a caller bypassing the empty-map guard of
`DiffSelection.getSelectionType` observes `All`, not the default or `None`. -/
theorem getState_empty_all :
    DiffSelectionParser.getState ([] : SelMap) = DiffSelectionType.All := rfl

/-! ### Lemmas about the global addressing invariant -/

theorem sumLines_nonneg (hs : List DiffHunk) : 0 ≤ sumLines hs := by
  induction hs with
  | nil => simp [sumLines]
  | cons h t ih =>
    have h1 : (0 : Int) ≤ (h.lines.length : Int) := Int.natCast_nonneg _
    simp only [sumLines]
    omega

theorem contiguous_mem_bounds (s : Int) (hs : List DiffHunk)
    (hwf : contiguousFrom s hs = true) :
    ∀ h2 ∈ hs, s ≤ h2.unifiedDiffStart
      ∧ h2.unifiedDiffEnd = h2.unifiedDiffStart + (h2.lines.length : Int) - 1
      ∧ 0 < h2.lines.length
      ∧ h2.unifiedDiffEnd < s + sumLines hs := by
  induction hs generalizing s with
  | nil => intro h2 hmem; simp at hmem
  | cons h t ih =>
    simp only [contiguousFrom, Bool.and_eq_true, decide_eq_true_eq] at hwf
    obtain ⟨⟨⟨hstart, hend⟩, hpos⟩, hrec⟩ := hwf
    intro h2 hmem
    have hsumt : 0 ≤ sumLines t := sumLines_nonneg t
    have hlen : (0 : Int) < (h.lines.length : Int) := by exact_mod_cast hpos
    rcases List.mem_cons.mp hmem with rfl | hmem2
    · refine ⟨by omega, by omega, hpos, ?_⟩
      simp only [sumLines]
      omega
    · have hb := ih (h.unifiedDiffEnd + 1) hrec h2 hmem2
      refine ⟨by omega, hb.2.1, hb.2.2.1, ?_⟩
      simp only [sumLines]
      omega

theorem find_hunk_contiguous (s : Int) (hs : List DiffHunk)
    (hwf : contiguousFrom s hs = true) (index : Int) :
    (s ≤ index ∧ index < s + sumLines hs →
      ∃ hk, hs.find? (fun h =>
          decide (h.unifiedDiffStart ≤ index) && decide (index ≤ h.unifiedDiffEnd)) = some hk
        ∧ hk ∈ hs ∧ hk.unifiedDiffStart ≤ index ∧ index ≤ hk.unifiedDiffEnd
        ∧ ∀ h2 ∈ hs, h2.unifiedDiffStart ≤ index → index ≤ h2.unifiedDiffEnd → h2 = hk)
    ∧ ((index < s ∨ s + sumLines hs ≤ index) →
      hs.find? (fun h =>
        decide (h.unifiedDiffStart ≤ index) && decide (index ≤ h.unifiedDiffEnd)) = none) := by
  induction hs generalizing s with
  | nil =>
    constructor
    · rintro ⟨h1, h2⟩
      simp only [sumLines] at h2
      omega
    · intro _
      simp [List.find?]
  | cons h t ih =>
    simp only [contiguousFrom, Bool.and_eq_true, decide_eq_true_eq] at hwf
    obtain ⟨⟨⟨hstart, hend⟩, hpos⟩, hrec⟩ := hwf
    have hsumt : 0 ≤ sumLines t := sumLines_nonneg t
    have hlen : (0 : Int) < (h.lines.length : Int) := by exact_mod_cast hpos
    have ihspec := ih (h.unifiedDiffEnd + 1) hrec
    constructor
    · rintro ⟨hge, hlt⟩
      simp only [sumLines] at hlt
      by_cases hin : index ≤ h.unifiedDiffEnd
      · refine ⟨h, ?_, List.mem_cons_self h t, by omega, hin, ?_⟩
        · have hpredt : (decide (h.unifiedDiffStart ≤ index)
              && decide (index ≤ h.unifiedDiffEnd)) = true := by
            simp only [Bool.and_eq_true, decide_eq_true_eq]
            exact ⟨by omega, hin⟩
          simp only [List.find?, hpredt]
        · intro h2 hmem h2s h2e
          rcases List.mem_cons.mp hmem with rfl | hmem2
          · rfl
          · exfalso
            have hb := contiguous_mem_bounds _ t hrec h2 hmem2
            omega
      · have hpred : (decide (h.unifiedDiffStart ≤ index)
            && decide (index ≤ h.unifiedDiffEnd)) = false := by
          simp only [Bool.and_eq_false_iff, decide_eq_false_iff_not]
          right
          exact hin
        simp only [List.find?, hpred]
        obtain ⟨hk, hfind, hmem, hks, hke, huniq⟩ :=
          ihspec.1 ⟨by omega, by omega⟩
        refine ⟨hk, hfind, List.mem_cons_of_mem _ hmem, hks, hke, ?_⟩
        intro h2 hmem2 h2s h2e
        rcases List.mem_cons.mp hmem2 with rfl | hmem3
        · exact absurd h2e hin
        · exact huniq h2 hmem3 h2s h2e
    · intro hout
      have hpred : (decide (h.unifiedDiffStart ≤ index)
          && decide (index ≤ h.unifiedDiffEnd)) = false := by
        simp only [Bool.and_eq_false_iff, decide_eq_false_iff_not]
        rcases hout with h1 | h1
        · left; omega
        · right
          simp only [sumLines] at h1
          omega
      simp only [List.find?, hpred]
      apply ihspec.2
      rcases hout with h1 | h1
      · left; omega
      · right
        simp only [sumLines] at h1
        omega

theorem lastHunkEnd_gen (s : Int) (hs : List DiffHunk)
    (hwf : contiguousFrom s hs = true) (hne : hs ≠ []) :
    ∃ h, hs.getLast? = some h ∧ h.unifiedDiffEnd = s + sumLines hs - 1 := by
  induction hs generalizing s with
  | nil => exact absurd rfl hne
  | cons h t ih =>
    simp only [contiguousFrom, Bool.and_eq_true, decide_eq_true_eq] at hwf
    obtain ⟨⟨⟨hstart, hend⟩, hpos⟩, hrec⟩ := hwf
    cases t with
    | nil =>
      refine ⟨h, rfl, ?_⟩
      simp only [sumLines]
      omega
    | cons h2 t2 =>
      obtain ⟨g, hg, hge⟩ := ih (h.unifiedDiffEnd + 1) hrec (by simp)
      refine ⟨g, ?_, ?_⟩
      · rw [List.getLast?_cons_cons]
        exact hg
      · simp only [sumLines] at hge ⊢
        omega

/-- C4 — Lookup correctness: on a diff satisfying the global addressing
invariant, `Diff.diffHunkForIndex` returns, for every index between `0` and
the last hunk's `unifiedDiffEnd`, the unique hunk whose
`[unifiedDiffStart, unifiedDiffEnd]` range contains the index, and returns
`none` when the index is negative or exceeds the last hunk's
`unifiedDiffEnd`. -/
theorem diffHunkForIndex_correct (d : DiffModel)
    (hwf : contiguousFrom 0 d.hunks = true) (index : Int) :
    (0 ≤ index ∧ index ≤ lastHunkEnd d →
      ∃ hk, Diff.diffHunkForIndex d index = some hk ∧ hk ∈ d.hunks
        ∧ hk.unifiedDiffStart ≤ index ∧ index ≤ hk.unifiedDiffEnd
        ∧ ∀ h2 ∈ d.hunks, h2.unifiedDiffStart ≤ index → index ≤ h2.unifiedDiffEnd → h2 = hk)
    ∧ ((index < 0 ∨ lastHunkEnd d < index) → Diff.diffHunkForIndex d index = none) := by
  by_cases hne : d.hunks = []
  · constructor
    · rintro ⟨h0, hle⟩
      exfalso
      have hl : lastHunkEnd d = -1 := by
        unfold lastHunkEnd
        rw [hne]
        rfl
      omega
    · intro _
      unfold Diff.diffHunkForIndex
      rw [hne]
      rfl
  · obtain ⟨g, hg, hge⟩ := lastHunkEnd_gen 0 d.hunks hwf hne
    have hlast : lastHunkEnd d = sumLines d.hunks - 1 := by
      unfold lastHunkEnd
      rw [hg]
      show g.unifiedDiffEnd = sumLines d.hunks - 1
      omega
    have hmain := find_hunk_contiguous 0 d.hunks hwf index
    unfold Diff.diffHunkForIndex
    constructor
    · rintro ⟨h0, hle⟩
      exact hmain.1 ⟨h0, by omega⟩
    · intro hout
      apply hmain.2
      rcases hout with h1 | h1
      · left; omega
      · right; omega

theorem diffHunkForIndex_correct_witness :
    ∃ hk, Diff.diffHunkForIndex diffEx 3 = some hk ∧ hk ∈ diffEx.hunks
      ∧ hk.unifiedDiffStart ≤ 3 ∧ (3 : Int) ≤ hk.unifiedDiffEnd
      ∧ ∀ h2 ∈ diffEx.hunks, h2.unifiedDiffStart ≤ 3 → (3 : Int) ≤ h2.unifiedDiffEnd → h2 = hk :=
  (diffHunkForIndex_correct diffEx (by decide) 3).1 ⟨by decide, by decide⟩

/-! ### The seeded selection map of `Diff.onIncludeChanged`

`linesSelEntries`/`hunksSelEntries` are the specification-side description of
the map built by the seeding loops: one entry `(globalIndex, selected)` per
`Add`/`Delete` line, in traversal order.  Under the addressing invariant the
seeding fold produces exactly this list. -/

def linesSelEntries (start : Int) : Nat → List DiffLine → SelMap
  | _, [] => []
  | idx, line :: rest =>
    (if line.type = DiffLineType.Add || line.type = DiffLineType.Delete
     then [(start + (idx : Int), line.selected)] else [])
      ++ linesSelEntries start (idx + 1) rest

def hunksSelEntries (hs : List DiffHunk) : SelMap :=
  hs.foldr (fun h acc => linesSelEntries h.unifiedDiffStart 0 h.lines ++ acc) []

theorem hunksSelEntries_cons (h : DiffHunk) (t : List DiffHunk) :
    hunksSelEntries (h :: t)
      = linesSelEntries h.unifiedDiffStart 0 h.lines ++ hunksSelEntries t := rfl

theorem linesSelEntries_bounds (start : Int) (idx : Nat) (ls : List DiffLine) :
    ∀ p ∈ linesSelEntries start idx ls,
      start + (idx : Int) ≤ p.1 ∧ p.1 < start + (idx : Int) + (ls.length : Int) := by
  induction ls generalizing idx with
  | nil => intro p hp; simp [linesSelEntries] at hp
  | cons line rest ih =>
    intro p hp
    simp only [linesSelEntries, List.mem_append] at hp
    rcases hp with hp | hp
    · by_cases hsel : line.type = DiffLineType.Add || line.type = DiffLineType.Delete
      · rw [if_pos hsel] at hp
        simp only [List.mem_singleton] at hp
        subst hp
        simp only [List.length_cons]
        push_cast
        omega
      · rw [if_neg hsel] at hp
        simp at hp
    · have hb := ih (idx + 1) p hp
      simp only [List.length_cons]
      push_cast at hb ⊢
      omega

theorem mapSet_append_of_fresh (m : SelMap) (k : Int) (v : Bool)
    (h : ∀ p ∈ m, p.1 ≠ k) : mapSet m k v = m ++ [(k, v)] := by
  induction m with
  | nil => rfl
  | cons p rest ih =>
    have hp : p.1 ≠ k := h p (by simp)
    rw [mapSet, if_neg hp, ih (fun q hq => h q (by simp [hq]))]
    rfl

theorem seedLines_eq (start : Int) (idx : Nat) (m : SelMap) (ls : List DiffLine)
    (hfresh : ∀ p ∈ m, p.1 < start + (idx : Int)) :
    seedLines start idx m ls = m ++ linesSelEntries start idx ls := by
  induction ls generalizing idx m with
  | nil => simp [seedLines, linesSelEntries]
  | cons line rest ih =>
    by_cases hsel : line.type = DiffLineType.Add || line.type = DiffLineType.Delete
    · rw [seedLines, if_pos hsel]
      rw [mapSet_append_of_fresh m (start + (idx : Int)) line.selected
        (fun p hp => by have := hfresh p hp; omega)]
      have hfresh2 : ∀ p ∈ m ++ [(start + (idx : Int), line.selected)],
          p.1 < start + ((idx + 1 : Nat) : Int) := by
        intro p hp
        rcases List.mem_append.mp hp with hp | hp
        · have := hfresh p hp
          push_cast
          omega
        · simp only [List.mem_singleton] at hp
          subst hp
          push_cast
          omega
      rw [ih (idx + 1) _ hfresh2, linesSelEntries, if_pos hsel]
      simp
    · rw [seedLines, if_neg hsel]
      have hfresh2 : ∀ p ∈ m, p.1 < start + ((idx + 1 : Nat) : Int) := by
        intro p hp
        have := hfresh p hp
        push_cast
        omega
      rw [ih (idx + 1) m hfresh2, linesSelEntries, if_neg hsel]
      simp

theorem foldl_seedHunk_eq (hs : List DiffHunk) (s : Int) (m : SelMap)
    (hwf : contiguousFrom s hs = true) (hfresh : ∀ p ∈ m, p.1 < s) :
    hs.foldl seedHunk m = m ++ hunksSelEntries hs := by
  induction hs generalizing s m with
  | nil => simp [hunksSelEntries]
  | cons h t ih =>
    simp only [contiguousFrom, Bool.and_eq_true, decide_eq_true_eq] at hwf
    obtain ⟨⟨⟨hstart, hend⟩, hpos⟩, hrec⟩ := hwf
    rw [List.foldl_cons]
    have h1 : seedHunk m h = m ++ linesSelEntries h.unifiedDiffStart 0 h.lines := by
      unfold seedHunk
      exact seedLines_eq _ 0 m _ (fun p hp => by have := hfresh p hp; push_cast; omega)
    rw [h1]
    have hfresh2 : ∀ p ∈ m ++ linesSelEntries h.unifiedDiffStart 0 h.lines,
        p.1 < h.unifiedDiffEnd + 1 := by
      intro p hp
      rcases List.mem_append.mp hp with hp | hp
      · have := hfresh p hp
        omega
      · have hb := linesSelEntries_bounds _ 0 _ p hp
        push_cast at hb
        omega
    rw [ih (h.unifiedDiffEnd + 1) _ hrec hfresh2, hunksSelEntries_cons]
    simp

theorem seed_eq_entries (d : DiffModel) (hwf : contiguousFrom 0 d.hunks = true) :
    d.hunks.foldl seedHunk [] = hunksSelEntries d.hunks := by
  simpa using foldl_seedHunk_eq d.hunks 0 [] hwf (by simp)

theorem hunksSelEntries_lb (s : Int) (hs : List DiffHunk)
    (hwf : contiguousFrom s hs = true) :
    ∀ p ∈ hunksSelEntries hs, s ≤ p.1 := by
  induction hs generalizing s with
  | nil => intro p hp; simp [hunksSelEntries] at hp
  | cons h t ih =>
    simp only [contiguousFrom, Bool.and_eq_true, decide_eq_true_eq] at hwf
    obtain ⟨⟨⟨hstart, hend⟩, hpos⟩, hrec⟩ := hwf
    intro p hp
    rw [hunksSelEntries_cons] at hp
    have hlen : (0 : Int) ≤ (h.lines.length : Int) := Int.natCast_nonneg _
    rcases List.mem_append.mp hp with hp | hp
    · have hb := linesSelEntries_bounds _ 0 _ p hp
      push_cast at hb
      omega
    · have := ih (h.unifiedDiffEnd + 1) hrec p hp
      omega

theorem linesSelEntries_pairwise (start : Int) (idx : Nat) (ls : List DiffLine) :
    List.Pairwise (fun p q : Int × Bool => p.1 < q.1) (linesSelEntries start idx ls) := by
  induction ls generalizing idx with
  | nil => simp [linesSelEntries]
  | cons line rest ih =>
    simp only [linesSelEntries]
    by_cases hsel : line.type = DiffLineType.Add || line.type = DiffLineType.Delete
    · rw [if_pos hsel]
      simp only [List.singleton_append]
      refine List.pairwise_cons.mpr ⟨?_, ih (idx + 1)⟩
      intro q hq
      have := linesSelEntries_bounds start (idx + 1) rest q hq
      push_cast at this ⊢
      omega
    · rw [if_neg hsel]
      simp only [List.nil_append]
      exact ih (idx + 1)

theorem hunksSelEntries_pairwise (s : Int) (hs : List DiffHunk)
    (hwf : contiguousFrom s hs = true) :
    List.Pairwise (fun p q : Int × Bool => p.1 < q.1) (hunksSelEntries hs) := by
  induction hs generalizing s with
  | nil => simp [hunksSelEntries]
  | cons h t ih =>
    simp only [contiguousFrom, Bool.and_eq_true, decide_eq_true_eq] at hwf
    obtain ⟨⟨⟨hstart, hend⟩, hpos⟩, hrec⟩ := hwf
    rw [hunksSelEntries_cons]
    apply List.pairwise_append.mpr
    refine ⟨linesSelEntries_pairwise _ 0 _, ih _ hrec, ?_⟩
    intro p hp q hq
    have hb := linesSelEntries_bounds _ 0 _ p hp
    have hlb := hunksSelEntries_lb _ t hrec q hq
    push_cast at hb
    omega

theorem hunksSelEntries_keys_nodup (s : Int) (hs : List DiffHunk)
    (hwf : contiguousFrom s hs = true) :
    ((hunksSelEntries hs).map Prod.fst).Nodup := by
  have hpw : List.Pairwise (fun a b : Int => a < b) ((hunksSelEntries hs).map Prod.fst) :=
    List.pairwise_map.mpr (hunksSelEntries_pairwise s hs hwf)
  exact hpw.imp (fun hlt => ne_of_lt hlt)

theorem linesSelEntries_mem_of_get (start : Int) (idx : Nat) (ls : List DiffLine)
    (j : Nat) (hj : j < ls.length) (hsel : (ls.get ⟨j, hj⟩).selectable = true) :
    (start + (idx : Int) + (j : Int), (ls.get ⟨j, hj⟩).selected)
      ∈ linesSelEntries start idx ls := by
  induction ls generalizing idx j with
  | nil => exact absurd hj (by simp)
  | cons line rest ih =>
    cases j with
    | zero =>
      have hsel0 : (line.type = DiffLineType.Add || line.type = DiffLineType.Delete) = true := hsel
      simp only [linesSelEntries, if_pos hsel0]
      apply List.mem_append.mpr
      left
      have harith : start + (idx : Int) + ((0 : Nat) : Int) = start + (idx : Int) := by
        push_cast
        ring
      rw [harith]
      exact List.mem_singleton.mpr rfl
    | succ j2 =>
      have hj2 : j2 < rest.length := Nat.lt_of_succ_lt_succ hj
      have hsel2 : (rest.get ⟨j2, hj2⟩).selectable = true := hsel
      have hmem := ih (idx + 1) j2 hj2 hsel2
      simp only [linesSelEntries]
      apply List.mem_append.mpr
      right
      have harith : start + (idx : Int) + ((j2 + 1 : Nat) : Int)
          = start + ((idx + 1 : Nat) : Int) + (j2 : Int) := by
        push_cast
        ring
      rw [harith]
      exact hmem

theorem linesSelEntries_mem_inv (start : Int) (idx : Nat) (ls : List DiffLine)
    (p : Int × Bool) (hp : p ∈ linesSelEntries start idx ls) :
    ∃ j, ∃ hj : j < ls.length, (ls.get ⟨j, hj⟩).selectable = true
      ∧ p = (start + (idx : Int) + (j : Int), (ls.get ⟨j, hj⟩).selected) := by
  induction ls generalizing idx with
  | nil => simp [linesSelEntries] at hp
  | cons line rest ih =>
    simp only [linesSelEntries, List.mem_append] at hp
    rcases hp with hp | hp
    · by_cases hsel : line.type = DiffLineType.Add || line.type = DiffLineType.Delete
      · rw [if_pos hsel] at hp
        simp only [List.mem_singleton] at hp
        refine ⟨0, by simp, hsel, ?_⟩
        rw [hp]
        have harith : start + (idx : Int) + ((0 : Nat) : Int) = start + (idx : Int) := by
          push_cast
          ring
        rw [harith]
        rfl
      · rw [if_neg hsel] at hp
        simp at hp
    · obtain ⟨j, hj, hs2, hp2⟩ := ih (idx + 1) hp
      refine ⟨j + 1, Nat.succ_lt_succ hj, hs2, ?_⟩
      rw [hp2]
      have harith : start + ((idx + 1 : Nat) : Int) + (j : Int)
          = start + (idx : Int) + ((j + 1 : Nat) : Int) := by
        push_cast
        ring
      rw [harith]
      rfl

theorem hunksSelEntries_mem_of_get (hs : List DiffHunk) (hk : DiffHunk) (hmem : hk ∈ hs)
    (j : Nat) (hj : j < hk.lines.length) (hsel : (hk.lines.get ⟨j, hj⟩).selectable = true) :
    (hk.unifiedDiffStart + (j : Int), (hk.lines.get ⟨j, hj⟩).selected)
      ∈ hunksSelEntries hs := by
  induction hs with
  | nil => simp at hmem
  | cons h t ih =>
    rw [hunksSelEntries_cons]
    rcases List.mem_cons.mp hmem with rfl | hmem2
    · apply List.mem_append.mpr
      left
      have := linesSelEntries_mem_of_get hk.unifiedDiffStart 0 hk.lines j hj hsel
      simpa using this
    · exact List.mem_append.mpr (Or.inr (ih hmem2))

theorem hunksSelEntries_mem_inv (hs : List DiffHunk) (p : Int × Bool)
    (hp : p ∈ hunksSelEntries hs) :
    ∃ hk, hk ∈ hs ∧ ∃ j, ∃ hj : j < hk.lines.length,
      (hk.lines.get ⟨j, hj⟩).selectable = true
      ∧ p = (hk.unifiedDiffStart + (j : Int), (hk.lines.get ⟨j, hj⟩).selected) := by
  induction hs with
  | nil => simp [hunksSelEntries] at hp
  | cons h t ih =>
    rw [hunksSelEntries_cons] at hp
    rcases List.mem_append.mp hp with hp | hp
    · obtain ⟨j, hj, hs2, hp2⟩ := linesSelEntries_mem_inv _ 0 _ p hp
      exact ⟨h, List.mem_cons_self h t, j, hj, hs2, by simpa using hp2⟩
    · obtain ⟨hk, hm, hrest⟩ := ih hp
      exact ⟨hk, List.mem_cons_of_mem _ hm, hrest⟩

theorem contiguous_pairwise_disjoint (s : Int) (hs : List DiffHunk)
    (hwf : contiguousFrom s hs = true) :
    List.Pairwise (fun a b : DiffHunk => a.unifiedDiffEnd < b.unifiedDiffStart) hs := by
  induction hs generalizing s with
  | nil => exact List.Pairwise.nil
  | cons h t ih =>
    simp only [contiguousFrom, Bool.and_eq_true, decide_eq_true_eq] at hwf
    obtain ⟨⟨⟨hstart, hend⟩, hpos⟩, hrec⟩ := hwf
    refine List.pairwise_cons.mpr ⟨?_, ih _ hrec⟩
    intro b hb
    have := (contiguous_mem_bounds _ t hrec b hb).1
    omega

theorem global_index_inj (s : Int) (hs : List DiffHunk) (hwf : contiguousFrom s hs = true)
    (hk1 : DiffHunk) (hm1 : hk1 ∈ hs) (j1 : Nat) (hj1 : j1 < hk1.lines.length)
    (hk2 : DiffHunk) (hm2 : hk2 ∈ hs) (j2 : Nat) (hj2 : j2 < hk2.lines.length)
    (heq : hk1.unifiedDiffStart + (j1 : Int) = hk2.unifiedDiffStart + (j2 : Int)) :
    hk1 = hk2 ∧ j1 = j2 := by
  by_cases hsame : hk1 = hk2
  · subst hsame
    refine ⟨rfl, ?_⟩
    have hji : (j1 : Int) = (j2 : Int) := by omega
    exact_mod_cast hji
  · exfalso
    have hpw : List.Pairwise (fun a b : DiffHunk =>
        a.unifiedDiffEnd < b.unifiedDiffStart ∨ b.unifiedDiffEnd < a.unifiedDiffStart) hs :=
      (contiguous_pairwise_disjoint s hs hwf).imp (fun hlt => Or.inl hlt)
    have hor := hpw.forall (fun a b h => h.symm) hm1 hm2 hsame
    have hb1 := contiguous_mem_bounds s hs hwf hk1 hm1
    have hb2 := contiguous_mem_bounds s hs hwf hk2 hm2
    have hj1i : (j1 : Int) < (hk1.lines.length : Int) := by exact_mod_cast hj1
    have hj2i : (j2 : Int) < (hk2.lines.length : Int) := by exact_mod_cast hj2
    have hjn1 : (0 : Int) ≤ (j1 : Int) := Int.natCast_nonneg _
    have hjn2 : (0 : Int) ≤ (j2 : Int) := Int.natCast_nonneg _
    obtain ⟨-, he1, -, -⟩ := hb1
    obtain ⟨-, he2, -, -⟩ := hb2
    rcases hor with h | h <;> omega

theorem mem_mapSet (m : SelMap) (k : Int) (v : Bool) (p : Int × Bool)
    (hp : p ∈ mapSet m k v) : p = (k, v) ∨ p ∈ m := by
  induction m with
  | nil => simpa [mapSet] using hp
  | cons q rest ih =>
    rw [mapSet] at hp
    by_cases hq : q.1 = k
    · rw [if_pos hq] at hp
      rcases List.mem_cons.mp hp with h1 | h1
      · exact Or.inl h1
      · exact Or.inr (List.mem_cons_of_mem _ h1)
    · rw [if_neg hq] at hp
      rcases List.mem_cons.mp hp with h1 | h1
      · exact Or.inr (by simp [h1])
      · rcases ih h1 with h2 | h2
        · exact Or.inl h2
        · exact Or.inr (List.mem_cons_of_mem _ h2)

/-- Number of selectable (`Add`/`Delete`) lines across all hunks. -/
def countSelectable (d : DiffModel) : Nat :=
  (d.hunks.map (fun h => (h.lines.filter (fun l => l.selectable)).length)).sum

theorem linesSelEntries_length (start : Int) (idx : Nat) (ls : List DiffLine) :
    (linesSelEntries start idx ls).length
      = (ls.filter (fun l => l.selectable)).length := by
  induction ls generalizing idx with
  | nil => simp [linesSelEntries]
  | cons line rest ih =>
    simp only [linesSelEntries, List.filter_cons, List.length_append]
    by_cases hsel : line.type = DiffLineType.Add || line.type = DiffLineType.Delete
    · have hsel2 : line.selectable = true := hsel
      rw [if_pos hsel, hsel2]
      simp [ih (idx + 1)]
      omega
    · have hsel2 : line.selectable = false := Bool.eq_false_of_not_eq_true hsel
      rw [if_neg hsel, hsel2]
      simp [ih (idx + 1)]

theorem hunksSelEntries_length (hs : List DiffHunk) :
    (hunksSelEntries hs).length
      = (hs.map (fun h => (h.lines.filter (fun l => l.selectable)).length)).sum := by
  induction hs with
  | nil => simp [hunksSelEntries]
  | cons h t ih =>
    rw [hunksSelEntries_cons]
    simp [linesSelEntries_length, ih]

theorem exists_entry_ne (m : SelMap) (hlen : 2 ≤ m.length)
    (hnd : (m.map Prod.fst).Nodup) (i : Int) : ∃ p ∈ m, p.1 ≠ i := by
  cases m with
  | nil => simp at hlen
  | cons p m2 =>
    cases m2 with
    | nil => simp at hlen
    | cons q rest =>
      have hne : p.1 ≠ q.1 := by
        simp only [List.map_cons, List.nodup_cons] at hnd
        intro hc
        exact hnd.1 (by simp [hc])
      by_cases hp : p.1 = i
      · refine ⟨q, by simp, ?_⟩
        rw [← hp]
        exact fun hc => hne hc.symm
      · exact ⟨p, by simp, hp⟩

/-- C2 — Seed-then-toggle: toggling a selectable line at global index
`i = unifiedDiffStart + j` emits a map holding, for every selectable line of
every hunk, an entry at that line's global index with its current `selected`
flag, except that the entry at `i` is the negation of the toggled line's
`selected` flag; on a diff whose selectable lines all share one flag value
and which has at least two selectable lines, the emitted map summarizes to
`Partial`. -/
theorem onIncludeChanged_toggle (d : DiffModel) (hwf : contiguousFrom 0 d.hunks = true)
    (hk : DiffHunk) (hmem : hk ∈ d.hunks) (j : Nat) (hj : j < hk.lines.length)
    (hsel : (hk.lines.get ⟨j, hj⟩).selectable = true) :
    (mapGet (Diff.onIncludeChanged d (hk.lines.get ⟨j, hj⟩) (hk.unifiedDiffStart + (j : Int)))
        (hk.unifiedDiffStart + (j : Int)) = some (!(hk.lines.get ⟨j, hj⟩).selected))
    ∧ (∀ hk2, hk2 ∈ d.hunks → ∀ j2, ∀ hj2 : j2 < hk2.lines.length,
        (hk2.lines.get ⟨j2, hj2⟩).selectable = true →
        hk2.unifiedDiffStart + (j2 : Int) ≠ hk.unifiedDiffStart + (j : Int) →
        mapGet (Diff.onIncludeChanged d (hk.lines.get ⟨j, hj⟩) (hk.unifiedDiffStart + (j : Int)))
          (hk2.unifiedDiffStart + (j2 : Int)) = some (hk2.lines.get ⟨j2, hj2⟩).selected)
    ∧ (∀ b : Bool,
        (∀ hk2, hk2 ∈ d.hunks → ∀ l, l ∈ hk2.lines → l.selectable = true → l.selected = b) →
        2 ≤ countSelectable d →
        DiffSelectionParser.getState
          (Diff.onIncludeChanged d (hk.lines.get ⟨j, hj⟩) (hk.unifiedDiffStart + (j : Int)))
          = DiffSelectionType.Partial) := by
  have hm : Diff.onIncludeChanged d (hk.lines.get ⟨j, hj⟩) (hk.unifiedDiffStart + (j : Int))
      = mapSet (hunksSelEntries d.hunks) (hk.unifiedDiffStart + (j : Int))
          (!(hk.lines.get ⟨j, hj⟩).selected) := by
    unfold Diff.onIncludeChanged
    rw [seed_eq_entries d hwf]
  refine ⟨?_, ?_, ?_⟩
  · rw [hm]
    exact mapGet_mapSet_self _ _ _
  · intro hk2 hmem2 j2 hj2 hsel2 hne
    rw [hm, mapGet_mapSet_ne _ _ _ _ hne]
    exact mapGet_of_mem_nodup _ _ _
      (hunksSelEntries_mem_of_get d.hunks hk2 hmem2 j2 hj2 hsel2)
      (hunksSelEntries_keys_nodup 0 d.hunks hwf)
  · intro b huniform hcount
    have hnd := hunksSelEntries_keys_nodup 0 d.hunks hwf
    have hlen : 2 ≤ (hunksSelEntries d.hunks).length := by
      rw [hunksSelEntries_length]
      exact hcount
    obtain ⟨p, hpmem, hpne⟩ :=
      exists_entry_ne _ hlen hnd (hk.unifiedDiffStart + (j : Int))
    obtain ⟨hk2, hm2, j2, hj2, hsel2, hp2⟩ := hunksSelEntries_mem_inv d.hunks p hpmem
    have hpval : p.2 = b := by
      rw [hp2]
      exact huniform hk2 hm2 _ (List.get_mem _ _ _) hsel2
    have hline_sel : (hk.lines.get ⟨j, hj⟩).selected = b :=
      huniform hk hmem _ (List.get_mem _ _ _) hsel
    have htog : (hk.unifiedDiffStart + (j : Int), !b)
        ∈ Diff.onIncludeChanged d (hk.lines.get ⟨j, hj⟩) (hk.unifiedDiffStart + (j : Int)) := by
      apply mapGet_mem
      rw [hm, hline_sel]
      exact mapGet_mapSet_self _ _ _
    have hother : (p.1, b)
        ∈ Diff.onIncludeChanged d (hk.lines.get ⟨j, hj⟩) (hk.unifiedDiffStart + (j : Int)) := by
      rw [hm]
      apply mem_mapSet_of_ne
      · rw [← hpval]
        simpa using hpmem
      · exact hpne
    apply (getState_eq_Partial_iff _).mpr
    cases b
    · exact ⟨⟨_, htog, rfl⟩, ⟨(p.1, false), hother, rfl⟩⟩
    · exact ⟨⟨(p.1, true), hother, rfl⟩, ⟨_, htog, rfl⟩⟩

theorem onIncludeChanged_toggle_witness :
    DiffSelectionParser.getState (Diff.onIncludeChanged diffEx lineA1 2)
      = DiffSelectionType.Partial :=
  (onIncludeChanged_toggle diffEx (by decide) hunk0 (by decide) 2 (by decide)
    (by decide)).2.2 false (by decide) (by decide)

/-- C3 counterexample — `Diff.onIncludeChanged` has no guard on the line's
kind: toggling global index 1 of `diffEx`, whose line is the `Context` line
`lineC1`, emits a map that contains the entry `(1, true)`, so the toggle is
not ignored and the emitted keys are not restricted to `Add`/`Delete`
lines. -/
theorem onIncludeChanged_context_counterexample :
    ((1 : Int), true) ∈ Diff.onIncludeChanged diffEx lineC1 1
    ∧ lineC1.type = DiffLineType.Context
    ∧ Diff.diffHunkForIndex diffEx 1 = some hunk0
    ∧ hunk0.lines.get ⟨1, by decide⟩ = lineC1 := by
  decide

/-- C3 amended — a toggle request at the global index of a `Context`/`Hunk`
line is applied rather than ignored: the emitted map still gets an entry at
that index holding the negation of the line's `selected` flag, while every
other key of the map is the global index of a selectable line carrying that
line's `selected` flag; the toggled index itself is not the global index of
any selectable line, so the emitted keys are not restricted to `Add`/`Delete`
lines. -/
theorem onIncludeChanged_nonselectable (d : DiffModel)
    (hwf : contiguousFrom 0 d.hunks = true)
    (hk : DiffHunk) (hmem : hk ∈ d.hunks) (j : Nat) (hj : j < hk.lines.length)
    (hns : (hk.lines.get ⟨j, hj⟩).selectable = false) :
    (mapGet (Diff.onIncludeChanged d (hk.lines.get ⟨j, hj⟩) (hk.unifiedDiffStart + (j : Int)))
        (hk.unifiedDiffStart + (j : Int)) = some (!(hk.lines.get ⟨j, hj⟩).selected))
    ∧ (∀ p ∈ Diff.onIncludeChanged d (hk.lines.get ⟨j, hj⟩) (hk.unifiedDiffStart + (j : Int)),
        p.1 ≠ hk.unifiedDiffStart + (j : Int) →
        ∃ hk2, hk2 ∈ d.hunks ∧ ∃ j2, ∃ hj2 : j2 < hk2.lines.length,
          (hk2.lines.get ⟨j2, hj2⟩).selectable = true
          ∧ p = (hk2.unifiedDiffStart + (j2 : Int), (hk2.lines.get ⟨j2, hj2⟩).selected))
    ∧ (∀ hk2, hk2 ∈ d.hunks → ∀ j2, ∀ hj2 : j2 < hk2.lines.length,
        (hk2.lines.get ⟨j2, hj2⟩).selectable = true →
        hk2.unifiedDiffStart + (j2 : Int) ≠ hk.unifiedDiffStart + (j : Int)) := by
  have hm : Diff.onIncludeChanged d (hk.lines.get ⟨j, hj⟩) (hk.unifiedDiffStart + (j : Int))
      = mapSet (hunksSelEntries d.hunks) (hk.unifiedDiffStart + (j : Int))
          (!(hk.lines.get ⟨j, hj⟩).selected) := by
    unfold Diff.onIncludeChanged
    rw [seed_eq_entries d hwf]
  refine ⟨?_, ?_, ?_⟩
  · rw [hm]
    exact mapGet_mapSet_self _ _ _
  · intro p hp hpne
    rw [hm] at hp
    rcases mem_mapSet _ _ _ p hp with h1 | h1
    · exfalso
      apply hpne
      rw [h1]
    · exact hunksSelEntries_mem_inv d.hunks p h1
  · intro hk2 hm2 j2 hj2 hsel2 hc
    obtain ⟨heqh, heqj⟩ :=
      global_index_inj 0 d.hunks hwf hk2 hm2 j2 hj2 hk hmem j hj hc
    subst heqh
    subst heqj
    have hcontra : (true : Bool) = false := by
      rw [← hsel2]
      exact hns
    cases hcontra

theorem onIncludeChanged_nonselectable_witness :
    mapGet (Diff.onIncludeChanged diffEx lineC1 1) 1 = some true :=
  (onIncludeChanged_nonselectable diffEx (by decide) hunk0 (by decide) 1 (by decide)
    (by decide)).1

/-- The line stored at hunk position `k`, line position `j` of a diff. -/
def lineAt (d : DiffModel) (k j : Nat) : Option DiffLine :=
  match d.hunks[k]? with
  | some hunk => hunk.lines[j]?
  | none => none

/-- C6 — Bulk consistency: after `Diff.setAllLines incl`, every `Add`/`Delete`
line's `selected` flag equals `incl` (all other fields unchanged), and every
`Context`/`Hunk` line is exactly the line that was there before the call. -/
theorem setAllLines_bulk (d : DiffModel) (incl : Bool) (k j : Nat) (l : DiffLine)
    (h : lineAt d k j = some l) :
    ∃ l2, lineAt (d.setAllLines incl) k j = some l2
      ∧ ((l.type = DiffLineType.Add ∨ l.type = DiffLineType.Delete) →
          l2 = { l with selected := incl })
      ∧ ((l.type = DiffLineType.Context ∨ l.type = DiffLineType.Hunk) → l2 = l) := by
  unfold lineAt at h ⊢
  cases hk : d.hunks[k]? with
  | none =>
    rw [hk] at h
    cases h
  | some hunk =>
    rw [hk] at h
    change hunk.lines[j]? = some l at h
    have hk2 : (d.setAllLines incl).hunks[k]? = some
        { hunk with lines := hunk.lines.map (fun line =>
            if line.type = DiffLineType.Add || line.type = DiffLineType.Delete
            then { line with selected := incl } else line) } := by
      simp only [DiffModel.setAllLines, List.getElem?_map, hk, Option.map_some']
    rw [hk2]
    refine ⟨if l.type = DiffLineType.Add || l.type = DiffLineType.Delete
            then { l with selected := incl } else l, ?_, ?_, ?_⟩
    · simp only [List.getElem?_map, h, Option.map_some']
    · intro hsel
      rcases hsel with h1 | h1 <;> simp [h1]
    · intro hctx
      rcases hctx with h1 | h1 <;> simp [h1]

theorem setAllLines_bulk_witness :
    ∃ l2, lineAt (diffEx.setAllLines true) 0 2 = some l2
      ∧ ((lineA1.type = DiffLineType.Add ∨ lineA1.type = DiffLineType.Delete) →
          l2 = { lineA1 with selected := true })
      ∧ ((lineA1.type = DiffLineType.Context ∨ lineA1.type = DiffLineType.Hunk) →
          l2 = lineA1) :=
  setAllLines_bulk diffEx true 0 2 lineA1 (by decide)

/-! ### The `loadDiff` flow of the `Diff` component

`loadDiff(repository, file, commit)` runs a synchronous head (null-file
clearing and the same-file/same-commit early return), then awaits
`LocalGitOperations.getDiff` and runs a continuation that stores the result
with `setState`, after applying the working-directory selection to the
fetched diff's line flags.  The continuation closes over `file` only; it
reads nothing from the component's current props when the result arrives. -/

/-- `Commit`: the component only compares `commit.sha`. -/
structure Commit where
  sha : String
deriving DecidableEq, Repr

/-- `FileChange` and its subclass `WorkingDirectoryFileChange`: the component
uses `file.id`, `file.path` and (for working-directory changes)
`file.selection`. -/
inductive FileChange where
  | fileChange (id : Int) (path : String)
  | workingDirectoryFileChange (id : Int) (path : String) (selection : DiffSelection)
deriving DecidableEq, Repr

def FileChange.id : FileChange → Int
  | .fileChange i _ => i
  | .workingDirectoryFileChange i _ _ => i

/-- `hunk.lines[relativeIndex].selected = value` with the
`if (diffLine)` guard: only the line at `index - unifiedDiffStart` (when it
exists) is changed. -/
def setLineSelectedInHunk (hunk : DiffHunk) (index : Int) (value : Bool) : DiffHunk :=
  { hunk with lines := hunk.lines.mapIdx (fun i l =>
      if (i : Int) = index - hunk.unifiedDiffStart then { l with selected := value } else l) }

/-- `diffHunkForIndex` followed by the line mutation: the first hunk whose
range contains `index` has its line at `index - unifiedDiffStart` updated;
when no hunk contains `index` nothing changes. -/
def setSelectedInHunks : List DiffHunk → Int → Bool → List DiffHunk
  | [], _, _ => []
  | h :: t, index, value =>
    if h.unifiedDiffStart ≤ index ∧ index ≤ h.unifiedDiffEnd
    then setLineSelectedInHunk h index value :: t
    else h :: setSelectedInHunks t index value

def applySelectedLine (diff : DiffModel) (index : Int) (value : Bool) : DiffModel :=
  { diff with hunks := setSelectedInHunks diff.hunks index value }

/-- Lines 106–125 of `loadDiff`: for a `WorkingDirectoryFileChange`, replay
the stored selection onto the fetched diff — per-line for a `Partial`
selection (a `forEach` over `selectedLines`), `setAllLines` otherwise. -/
def loadDiffApplySelection (file : FileChange) (diff : DiffModel) : DiffModel :=
  match file with
  | FileChange.fileChange _ _ => diff
  | FileChange.workingDirectoryFileChange _ _ diffSelection =>
    let selectionType := diffSelection.getSelectionType
    if selectionType = DiffSelectionType.Partial then
      diffSelection.selectedLines.foldl (fun diff p => applySelectedLine diff p.1 p.2) diff
    else
      diff.setAllLines (if selectionType = DiffSelectionType.All then true else false)

/-- The component state `loadDiff` interacts with: the currently-active
(file, commit) identity (`this.props`) and the current diff
(`this.state.diff`). -/
structure ComponentState where
  propsFile : Option FileChange
  propsCommit : Option Commit
  diff : DiffModel
deriving DecidableEq, Repr

inductive LoadAction where
  | clearDiff
  | skip
  | fetch (file : FileChange) (commit : Option Commit)
deriving DecidableEq, Repr

/-- The synchronous head of `loadDiff` (lines 81–103): a null `file` clears
the state to an empty diff and returns; the same file id and commit sha as
the active props returns early without fetching; otherwise the awaited fetch
for `(file, commit)` is started. -/
def loadDiffSync (s : ComponentState) (file : Option FileChange) (commit : Option Commit) :
    LoadAction :=
  match file with
  | none => LoadAction.clearDiff
  | some f =>
    let sameFile := match s.propsFile with
      | some pf => decide (f.id = pf.id)
      | none => false
    let sameCommit := match commit, s.propsCommit with
      | some c, some pc => decide (c.sha = pc.sha)
      | _, _ => false
    if sameFile && sameCommit then LoadAction.skip else LoadAction.fetch f commit

/-- Lines 104–127 of `loadDiff`: the continuation run when the awaited
`getDiff` result for a pending `fetch file commit` request arrives.  It
applies the working-directory selection to the fetched diff and stores the
result via `setState({ diff })` unconditionally: no comparison is made
between the request's `(file, commit)` and the currently-active identity. -/
def loadDiffResolve (s : ComponentState) (file : FileChange) (fetched : DiffModel) :
    ComponentState :=
  { s with diff := loadDiffApplySelection file fetched }

/-- Modelled from the spec: `LocalGitOperations.getDiff` (in
`app/src/lib/local-git-operations.ts`, which is not under `src/`) is the
external diff source awaited by `loadDiff`.  Per §7 of the spec, a
diff-source failure (unreadable object, I/O error) is surfaced as "no diff
available" — an empty `Diff` — rather than a crash or a propagated
rejection. -/
def getDiff (result : Except String DiffModel) : DiffModel :=
  match result with
  | Except.ok diff => diff
  | Except.error _ => { hunks := [], isBinary := false }

/-! Fixtures for the supersession scenario. -/

def staleFile : FileChange := FileChange.fileChange 1 "a.txt"

def activeFile : FileChange := FileChange.fileChange 2 "b.txt"

def activeState : ComponentState :=
  { propsFile := some activeFile, propsCommit := none, diff := { hunks := [] } }

/-- C7 counterexample — the continuation of `loadDiff` applies a result even
when its request identity no longer matches the active one: with the
component now showing `activeFile` (id 2), the resolution of the stale
request for `staleFile` (id 1) still installs the stale diff as the
component's current diff instead of discarding it. -/
theorem loadDiff_stale_applied_counterexample :
    staleFile.id ≠ activeFile.id
    ∧ (loadDiffResolve activeState staleFile diffEx).diff = diffEx
    ∧ diffEx ≠ activeState.diff := by
  decide

/-- C7 amended — `loadDiff` performs no supersession check: a request whose
(file, commit) differs from the active identity is issued (never skipped),
and when any pending request's result arrives the continuation stores the
transformed result as the current diff unconditionally, so a stale result is
applied rather than discarded.  Only a re-request whose file id and commit
sha both equal the active ones is skipped, before fetching. -/
theorem loadDiff_no_supersession (s : ComponentState) (file : FileChange)
    (commit : Option Commit) (fetched : DiffModel)
    (hstale : ∀ pf, s.propsFile = some pf → file.id ≠ pf.id) :
    loadDiffSync s (some file) commit = LoadAction.fetch file commit
    ∧ (loadDiffResolve s file fetched).diff = loadDiffApplySelection file fetched
    ∧ (loadDiffResolve s file fetched).propsFile = s.propsFile := by
  refine ⟨?_, rfl, rfl⟩
  unfold loadDiffSync
  cases hp : s.propsFile with
  | none => simp
  | some pf =>
    have hne : file.id ≠ pf.id := hstale pf hp
    simp [hne]

theorem loadDiff_no_supersession_witness :
    loadDiffSync activeState (some staleFile) none = LoadAction.fetch staleFile none
    ∧ (loadDiffResolve activeState staleFile diffEx).diff
        = loadDiffApplySelection staleFile diffEx
    ∧ (loadDiffResolve activeState staleFile diffEx).propsFile = activeState.propsFile :=
  loadDiff_no_supersession activeState staleFile none diffEx
    (fun pf hpf => by
      have hpf2 : pf = activeFile := by
        have : some activeFile = some pf := hpf
        exact (Option.some.inj this).symm
      rw [hpf2]
      decide)

theorem applySelectedLine_nil (index : Int) (value : Bool) (diff : DiffModel)
    (h : diff.hunks = []) : (applySelectedLine diff index value).hunks = [] := by
  unfold applySelectedLine
  simp [h, setSelectedInHunks]

theorem foldl_applySelectedLine_nil (entries : SelMap) (diff : DiffModel)
    (h : diff.hunks = []) :
    (entries.foldl (fun d p => applySelectedLine d p.1 p.2) diff).hunks = [] := by
  induction entries generalizing diff with
  | nil => simpa using h
  | cons p rest ih =>
    rw [List.foldl_cons]
    exact ih _ (applySelectedLine_nil p.1 p.2 diff h)

theorem loadDiffApplySelection_nil (file : FileChange) (diff : DiffModel)
    (h : diff.hunks = []) : (loadDiffApplySelection file diff).hunks = [] := by
  cases file with
  | fileChange i p => exact h
  | workingDirectoryFileChange i p sel =>
    unfold loadDiffApplySelection
    by_cases hp : sel.getSelectionType = DiffSelectionType.Partial
    · simp only [hp, if_pos]
      exact foldl_applySelectedLine_nil _ _ h
    · simp only [hp, if_neg, if_false]
      simp [DiffModel.setAllLines, h]

/-- C8 — Diff-source failure handling: a failing `getDiff` call surfaces as
the empty diff (no hunks), the `loadDiff` continuation installs that empty
diff without crashing or propagating an error, and a working-tree request
(commit `none`) for the same file is always re-issued as a fresh fetch, so
the request can be retried. -/
theorem loadDiff_failure_empty (s : ComponentState) (file : FileChange) (e : String) :
    getDiff (Except.error e) = { hunks := [], isBinary := false }
    ∧ (loadDiffResolve s file (getDiff (Except.error e))).diff.hunks = []
    ∧ loadDiffSync s (some file) none = LoadAction.fetch file none := by
  refine ⟨rfl, ?_, ?_⟩
  · exact loadDiffApplySelection_nil file _ rfl
  · unfold loadDiffSync
    cases s.propsFile <;> simp

end Desktop
